import Mathlib

/-!
Verification of go-more: the TTL cache of `cmd/ttl-cache/main.go`.

A shallow embedding of the generic TTL cache.  The mutex only serialises the
critical sections, so every method is modelled as one atomic step on the
cache state.  Each method reads the clock (`time.Now()`) at most once; that
reading is the explicit argument `now`.  A janitor pass runs under the mutex
too, as one step; it reads the clock afresh at every entry it visits, and
those readings are the argument `clock` of the pass.

* `time.Time` is a point on one integer time line (nanoseconds), and
  `time.Duration` is a signed number of nanoseconds; `Time.After` is `>` and
  `Time.Add` is `+`.
* `map[K]V` is an association list; indexing reads the first binding of a
  key, `delete` drops every binding of the key, and assignment replaces the
  bindings of the key by a single new one.  A Go map binds a key at most once
  (`GoMap.WF`); the empty map is so and every call keeps it so.

The plain cache of `cmd/go-cache/main.go` and the middleware stack
`CreateStack` of `cmd/go122/main.go` follow the TTL cache.
-/

namespace GoMore

/-- A reading of the clock: nanoseconds on a single time line. -/
abbrev Time := Int

/-- The Go type `time.Duration`: a signed number of nanoseconds. -/
abbrev Duration := Int

/-- The method `Time.After`: `t.After(u)` reports whether `t` is after `u`. -/
def Time.After (t u : Time) : Bool := decide (u < t)

/-- The method `Time.Add`: the time `t + d`. -/
def Time.Add (t : Time) (d : Duration) : Time := t + d

/-- One millisecond, `time.Millisecond`. -/
def Millisecond : Duration := 1000000

/-- One second, `time.Second`. -/
def Second : Duration := 1000 * Millisecond

/-- A Go map `map[K]V`, as an association list. -/
abbrev GoMap (K V : Type) := List (K × V)

namespace GoMap

variable {K V : Type} [DecidableEq K]

/-- The binding of `key` in the map, when there is one. -/
def lookup : GoMap K V → K → Option V
  | [], _ => none
  | (k, v) :: rest, key => if k = key then some v else lookup rest key

/-- The two-result index expression `v, found := m[key]`: the zero value of
`V` and `false` when the key is absent. -/
def index [Inhabited V] (m : GoMap K V) (key : K) : V × Bool :=
  match lookup m key with
  | some v => (v, true)
  | none => (default, false)

/-- The builtin `delete(m, key)`; a no-op when the key is absent. -/
def delete : GoMap K V → K → GoMap K V
  | [], _ => []
  | (k, v) :: rest, key => if k = key then delete rest key else (k, v) :: delete rest key

/-- The assignment `m[key] = v`: inserts or overwrites the binding of `key`. -/
def assign (m : GoMap K V) (key : K) (v : V) : GoMap K V :=
  (key, v) :: delete m key

/-- The keys of the map, one per binding. -/
def keys (m : GoMap K V) : List K := m.map Prod.fst

/-- A well-formed map binds every key at most once, as a Go map does. -/
def WF (m : GoMap K V) : Prop := (keys m).Nodup

/-- The number of bindings the association list holds for `key`. -/
def bindings (m : GoMap K V) (key : K) : Nat :=
  (m.filter (fun kv => decide (kv.1 = key))).length

end GoMap

/-- The struct `item[V]`: a value with its absolute expiry time. -/
structure item (V : Type) where
  value : V
  expiry : Time
deriving DecidableEq, Repr

/-- The zero value of `item[V]`. -/
instance instInhabitedItem {V : Type} [Inhabited V] : Inhabited (item V) :=
  ⟨⟨default, 0⟩⟩

/-- The method `item.isExpired`: `time.Now().After(i.expiry)`, with the clock
reading `now`. -/
def item.isExpired {V : Type} (i : item V) (now : Time) : Bool :=
  Time.After now i.expiry

/-- The struct `TTLCache[K, V]`; the mutex carries no data. -/
structure TTLCache (K V : Type) where
  items : GoMap K (item V)
deriving DecidableEq, Repr

namespace TTLCache

variable {K V : Type} [DecidableEq K]

/-- The cache `NewTTLCache` returns: an empty map. -/
def NewTTLCache : TTLCache K V := ⟨[]⟩

/-- The method `TTLCache.Set`, run when the clock reads `now`. -/
def Set (c : TTLCache K V) (key : K) (value : V) (ttl : Duration) (now : Time) :
    TTLCache K V :=
  ⟨GoMap.assign c.items key ⟨value, Time.Add now ttl⟩⟩

/-- The method `TTLCache.Get`, run when the clock reads `now`: the returned
pair and the cache afterwards. -/
def Get [Inhabited V] (c : TTLCache K V) (key : K) (now : Time) :
    (V × Bool) × TTLCache K V :=
  let r := GoMap.index c.items key
  if !r.2 then
    ((r.1.value, false), c)
  else if r.1.isExpired now then
    ((r.1.value, false), ⟨GoMap.delete c.items key⟩)
  else
    ((r.1.value, true), c)

/-- The method `TTLCache.Remove`. -/
def Remove (c : TTLCache K V) (key : K) : TTLCache K V :=
  ⟨GoMap.delete c.items key⟩

/-- The method `TTLCache.Pop`, run when the clock reads `now`: the returned
pair and the cache afterwards. -/
def Pop [Inhabited V] (c : TTLCache K V) (key : K) (now : Time) :
    (V × Bool) × TTLCache K V :=
  let r := GoMap.index c.items key
  if !r.2 then
    ((r.1.value, false), c)
  else
    let c2 : TTLCache K V := ⟨GoMap.delete c.items key⟩
    if r.1.isExpired now then
      ((r.1.value, false), c2)
    else
      ((r.1.value, true), c2)

/-- The loop `for key, item := range c.items` of the janitor, on the entries
still to visit and the map `m` as the deletes made so far have left it.  The
entry visited at position `i` is checked by `item.isExpired()`, which reads
the clock itself: `clock i` is that reading.  An expired entry has `delete`
called on its key.  The clock is any function, so every order in which
`range` may visit the entries, with its readings, is a case of this loop. -/
def sweepLoop (clock : Nat → Time) :
    List (K × item V) → Nat → GoMap K (item V) → GoMap K (item V)
  | [], _, m => m
  | kv :: rest, i, m =>
    sweepLoop clock rest (i + 1)
      (if kv.2.isExpired (clock i) then GoMap.delete m kv.1 else m)

/-- One pass of the janitor in `NewTTLCache` (the body run on each tick, under
the mutex): the loop over every entry of the map, the entry at position `i`
checked at the clock reading `clock i`. -/
def sweep (c : TTLCache K V) (clock : Nat → Time) : TTLCache K V :=
  ⟨sweepLoop clock c.items 0 c.items⟩

/-- The keys on which a pass calls `delete`: those of the entries found
expired at their own reading. -/
def expiredKeys (clock : Nat → Time) : List (K × item V) → Nat → List K
  | [], _ => []
  | kv :: rest, i =>
    if kv.2.isExpired (clock i) then kv.1 :: expiredKeys clock rest (i + 1)
    else expiredKeys clock rest (i + 1)

/-- The entries a pass is to keep, as its postcondition states them: the
entry at position `i` stays exactly when its reading `clock i` is not after
its expiry. -/
def keepLive (clock : Nat → Time) : List (K × item V) → Nat → List (K × item V)
  | [], _ => []
  | kv :: rest, i =>
    if clock i > kv.2.expiry then keepLive clock rest (i + 1)
    else kv :: keepLive clock rest (i + 1)

/-- A call on the cache: one of the four methods, or one janitor pass with
the clock readings of its checks. -/
inductive Op (K V : Type) where
  | set (key : K) (value : V) (ttl : Duration)
  | get (key : K)
  | pop (key : K)
  | remove (key : K)
  | sweep (clock : Nat → Time)

/-- The cache after the call `op`; a method runs when the clock reads `now`,
a janitor pass brings its own readings. -/
def step [Inhabited V] (c : TTLCache K V) (op : Op K V) (now : Time) : TTLCache K V :=
  match op with
  | Op.set key value ttl => Set c key value ttl now
  | Op.get key => (Get c key now).2
  | Op.pop key => (Pop c key now).2
  | Op.remove key => Remove c key
  | Op.sweep clock => sweep c clock

/-- The cache after a sequence of calls, each with its clock reading. -/
def run [Inhabited V] (c : TTLCache K V) (ops : List (Op K V × Time)) : TTLCache K V :=
  ops.foldl (fun acc p => step acc p.1 p.2) c

/-- The scenario `Set("a",1,100ms); Set("b",2,10s); sleep 150ms; Get("a");
Get("b"); Pop("b"); Get("b")` on a fresh `TTLCache[string,int]`: the cache
is made and the two `Set` calls run at `t0`, the four reads run 150ms later.
The janitor of the cache first ticks 5 seconds after `NewTTLCache`, after the
reads, so no janitor pass runs within the scenario.  The result is the four
returned pairs, in order. -/
def scenario (t0 : Time) : List (Int × Bool) :=
  let c0 : TTLCache String Int := NewTTLCache
  let c1 := Set c0 "a" 1 (100 * Millisecond) t0
  let c2 := Set c1 "b" 2 (10 * Second) t0
  let t1 : Time := Time.Add t0 (150 * Millisecond)
  let r1 := Get c2 "a" t1
  let r2 := Get r1.2 "b" t1
  let r3 := Pop r2.2 "b" t1
  let r4 := Get r3.2 "b" t1
  [r1.1, r2.1, r3.1, r4.1]

/-- A store in which `k` is either unbound or bound to `i`. -/
def boundToOrAbsent (m : GoMap K (item V)) (k : K) (i : item V) : Prop :=
  GoMap.lookup m k = none ∨ GoMap.lookup m k = some i

end TTLCache

/-! ## The plain cache of `cmd/go-cache/main.go` -/

/-- The struct `Cache[K, V]`; the mutex carries no data. -/
structure Cache (K V : Type) where
  items : GoMap K V
deriving DecidableEq, Repr

namespace Cache

variable {K V : Type} [DecidableEq K]

/-- The cache `New` returns: an empty map. -/
def New : Cache K V := ⟨[]⟩

/-- The method `Cache.Set`. -/
def Set (c : Cache K V) (key : K) (value : V) : Cache K V :=
  ⟨GoMap.assign c.items key value⟩

/-- The method `Cache.Get`: the returned pair and the cache afterwards. -/
def Get [Inhabited V] (c : Cache K V) (key : K) : (V × Bool) × Cache K V :=
  let r := GoMap.index c.items key
  ((r.1, r.2), c)

/-- The method `Cache.Remove`. -/
def Remove (c : Cache K V) (key : K) : Cache K V :=
  ⟨GoMap.delete c.items key⟩

/-- The method `Cache.Pop`: the returned pair and the cache afterwards. -/
def Pop [Inhabited V] (c : Cache K V) (key : K) : (V × Bool) × Cache K V :=
  let r := GoMap.index c.items key
  if r.2 then
    ((r.1, r.2), ⟨GoMap.delete c.items key⟩)
  else
    ((r.1, r.2), c)

end Cache

/-- The plain store under a TTL store: every entry without its expiry. -/
def TTLCache.erase {K V : Type} (c : TTLCache K V) : Cache K V :=
  ⟨c.items.map (fun kv => (kv.1, kv.2.value))⟩

/-! ## The middleware stack of `cmd/go122/main.go` -/

/-- The type `Middleware`, `func(http.Handler) http.Handler`; the type
`Handler` stands for `http.Handler`. -/
abbrev Middleware (Handler : Type) := Handler → Handler

/-- The loop of `CreateStack`, `for i := len(xs) - 1; i >= 0; i--`, with `j`
the number of iterations still to run: the next index is `i = j - 1`, and one
iteration is `next = xs[i](next)`. -/
def CreateStack.loop {Handler : Type} (xs : List (Middleware Handler)) :
    (j : Nat) → j ≤ xs.length → Handler → Handler
  | 0, _, next => next
  | j + 1, hj, next => CreateStack.loop xs j (Nat.le_of_succ_le hj) (xs.get ⟨j, hj⟩ next)

/-- The function `CreateStack`: the middleware that runs the loop from
`i = len(xs) - 1` on the handler it is given, and returns `next`. -/
def CreateStack {Handler : Type} (xs : List (Middleware Handler)) : Middleware Handler :=
  fun next => CreateStack.loop xs xs.length (Nat.le_refl _) next

/-- The nesting `m1(m2(...(mn(h))...))` of a list of middlewares around a
handler, as the claim writes it: the first listed is outermost. -/
def nested {Handler : Type} : List (Middleware Handler) → Handler → Handler
  | [], h => h
  | m :: ms, h => m (nested ms h)

/-! ## Facts about the map primitives -/

namespace GoMap

variable {K V : Type} [DecidableEq K]

theorem lookup_delete_self (m : GoMap K V) (key : K) :
    lookup (delete m key) key = none := by
  induction m with
  | nil => rfl
  | cons kv rest ih =>
    obtain ⟨k, v⟩ := kv
    by_cases hk : k = key
    · simp [delete, hk, ih]
    · simp [delete, lookup, hk, ih]

theorem lookup_delete_ne (m : GoMap K V) {key other : K} (hne : key ≠ other) :
    lookup (delete m key) other = lookup m other := by
  induction m with
  | nil => rfl
  | cons kv rest ih =>
    obtain ⟨k, v⟩ := kv
    by_cases hk : k = key
    · have hko : k ≠ other := fun h => hne (hk.symm.trans h)
      simp [delete, lookup, hk, ih, hne]
    · by_cases hko : k = other
      · subst hko
        simp [delete, lookup, hk]
      · simp [delete, lookup, hk, hko, ih]

theorem delete_eq_self_of_lookup_none (m : GoMap K V) (key : K)
    (h : lookup m key = none) : delete m key = m := by
  induction m with
  | nil => rfl
  | cons kv rest ih =>
    obtain ⟨k, v⟩ := kv
    by_cases hk : k = key
    · simp [lookup, hk] at h
    · simp only [lookup, hk, if_false] at h
      simp [delete, hk, ih h]

theorem delete_delete (m : GoMap K V) (key : K) :
    delete (delete m key) key = delete m key :=
  delete_eq_self_of_lookup_none _ _ (lookup_delete_self m key)

theorem lookup_assign_self (m : GoMap K V) (key : K) (v : V) :
    lookup (assign m key v) key = some v := by
  simp [assign, lookup]

theorem lookup_assign_ne (m : GoMap K V) {key other : K} (v : V) (hne : key ≠ other) :
    lookup (assign m key v) other = lookup m other := by
  simp [assign, lookup, hne, lookup_delete_ne m hne]

theorem lookup_delete_cases (m : GoMap K V) (key other : K) :
    lookup (delete m key) other = none ∨ lookup (delete m key) other = lookup m other := by
  by_cases h : key = other
  · subst h; exact Or.inl (lookup_delete_self m key)
  · exact Or.inr (lookup_delete_ne m h)

theorem not_mem_keys_delete (m : GoMap K V) (key : K) : key ∉ keys (delete m key) := by
  induction m with
  | nil => simp [delete, keys]
  | cons kv rest ih =>
    obtain ⟨k, v⟩ := kv
    by_cases hk : k = key
    · simpa [delete, hk] using ih
    · have hne : ¬ key = k := fun h => hk h.symm
      have ih2 : key ∉ List.map Prod.fst (delete rest key) := ih
      simp [delete, keys, hk, hne, ih2]

theorem mem_keys_of_mem_keys_delete (m : GoMap K V) (key other : K)
    (h : other ∈ keys (delete m key)) : other ∈ keys m := by
  induction m with
  | nil => exact h
  | cons kv rest ih =>
    obtain ⟨k, v⟩ := kv
    by_cases hk : k = key
    · simp only [delete, hk, if_true] at h
      exact List.mem_cons_of_mem _ (ih h)
    · simp only [delete, hk, if_false, keys, List.map_cons, List.mem_cons] at h
      rcases h with h | h
      · simp [keys, h]
      · exact List.mem_cons_of_mem _ (ih h)

theorem WF_delete (m : GoMap K V) (key : K) (h : WF m) : WF (delete m key) := by
  induction m with
  | nil => exact h
  | cons kv rest ih =>
    obtain ⟨k, v⟩ := kv
    have hcons : k ∉ keys rest ∧ WF rest := by simpa [WF, keys] using h
    by_cases hk : k = key
    · simpa [delete, hk] using ih hcons.2
    · have hnot : k ∉ keys (delete rest key) :=
        fun hmem => hcons.1 (mem_keys_of_mem_keys_delete rest key k hmem)
      have hwf : (keys (delete rest key)).Nodup := ih hcons.2
      simp only [delete, hk, if_false, WF, keys, List.map_cons]
      exact List.nodup_cons.mpr ⟨hnot, hwf⟩

theorem WF_assign (m : GoMap K V) (key : K) (v : V) (h : WF m) : WF (assign m key v) := by
  simp only [assign, WF, keys, List.map_cons]
  exact List.nodup_cons.mpr ⟨not_mem_keys_delete m key, WF_delete m key h⟩

theorem bindings_delete_self (m : GoMap K V) (key : K) :
    bindings (delete m key) key = 0 := by
  induction m with
  | nil => rfl
  | cons kv rest ih =>
    obtain ⟨k, v⟩ := kv
    by_cases hk : k = key
    · simpa [delete, hk] using ih
    · simpa [delete, bindings, hk] using ih

theorem bindings_assign_self (m : GoMap K V) (key : K) (v : V) :
    bindings (assign m key v) key = 1 := by
  have h := bindings_delete_self m key
  simp only [bindings] at h
  simp [assign, bindings, h]

theorem index_of_lookup_some [Inhabited V] (m : GoMap K V) (key : K) (v : V)
    (h : lookup m key = some v) : index m key = (v, true) := by
  simp [index, h]

theorem index_of_lookup_none [Inhabited V] (m : GoMap K V) (key : K)
    (h : lookup m key = none) : index m key = (default, false) := by
  simp [index, h]

end GoMap

/-! ## The three outcomes of `Get` and of `Pop` -/

namespace TTLCache

variable {K V : Type} [DecidableEq K] [Inhabited V]

theorem Get_absent (c : TTLCache K V) (key : K) (now : Time)
    (h : GoMap.lookup c.items key = none) :
    Get c key now = ((default, false), c) := by
  simp [Get, GoMap.index_of_lookup_none _ _ h, instInhabitedItem]

theorem Get_expired (c : TTLCache K V) (key : K) (now : Time) (i : item V)
    (h : GoMap.lookup c.items key = some i) (hexp : i.expiry < now) :
    Get c key now = ((i.value, false), ⟨GoMap.delete c.items key⟩) := by
  simp [Get, GoMap.index_of_lookup_some _ _ _ h, item.isExpired, Time.After, hexp]

theorem Get_valid (c : TTLCache K V) (key : K) (now : Time) (i : item V)
    (h : GoMap.lookup c.items key = some i) (hlive : ¬ i.expiry < now) :
    Get c key now = ((i.value, true), c) := by
  simp [Get, GoMap.index_of_lookup_some _ _ _ h, item.isExpired, Time.After, hlive]

theorem Pop_absent (c : TTLCache K V) (key : K) (now : Time)
    (h : GoMap.lookup c.items key = none) :
    Pop c key now = ((default, false), c) := by
  simp [Pop, GoMap.index_of_lookup_none _ _ h, instInhabitedItem]

theorem Pop_expired (c : TTLCache K V) (key : K) (now : Time) (i : item V)
    (h : GoMap.lookup c.items key = some i) (hexp : i.expiry < now) :
    Pop c key now = ((i.value, false), ⟨GoMap.delete c.items key⟩) := by
  simp [Pop, GoMap.index_of_lookup_some _ _ _ h, item.isExpired, Time.After, hexp]

theorem Pop_valid (c : TTLCache K V) (key : K) (now : Time) (i : item V)
    (h : GoMap.lookup c.items key = some i) (hlive : ¬ i.expiry < now) :
    Pop c key now = ((i.value, true), ⟨GoMap.delete c.items key⟩) := by
  simp [Pop, GoMap.index_of_lookup_some _ _ _ h, item.isExpired, Time.After, hlive]

end TTLCache

/-! ## Every call keeps the map well formed -/

namespace TTLCache

variable {K V : Type} [DecidableEq K]

theorem WF_sweepLoop (clock : Nat → Time) (entries : List (K × item V)) (i : Nat)
    (m : GoMap K (item V)) (h : GoMap.WF m) :
    GoMap.WF (sweepLoop clock entries i m) := by
  induction entries generalizing i m with
  | nil => exact h
  | cons kv rest ih =>
    simp only [sweepLoop]
    apply ih
    by_cases hx : kv.2.isExpired (clock i) = true
    · simp only [hx, if_true]; exact GoMap.WF_delete m kv.1 h
    · simp only [hx]; exact h

theorem WF_step [Inhabited V] (c : TTLCache K V) (op : Op K V) (now : Time)
    (h : GoMap.WF c.items) : GoMap.WF (step c op now).items := by
  cases op with
  | set key value ttl => exact GoMap.WF_assign _ key _ h
  | get key =>
    simp only [step]
    cases hl : GoMap.lookup c.items key with
    | none => rw [Get_absent c key now hl]; exact h
    | some j =>
      by_cases hexp : j.expiry < now
      · rw [Get_expired c key now j hl hexp]; exact GoMap.WF_delete _ key h
      · rw [Get_valid c key now j hl hexp]; exact h
  | pop key =>
    simp only [step]
    cases hl : GoMap.lookup c.items key with
    | none => rw [Pop_absent c key now hl]; exact h
    | some j =>
      by_cases hexp : j.expiry < now
      · rw [Pop_expired c key now j hl hexp]; exact GoMap.WF_delete _ key h
      · rw [Pop_valid c key now j hl hexp]; exact GoMap.WF_delete _ key h
  | remove key => exact GoMap.WF_delete _ key h
  | sweep clock => exact WF_sweepLoop clock c.items 0 c.items h

theorem WF_run [Inhabited V] (ops : List (Op K V × Time)) (c : TTLCache K V)
    (h : GoMap.WF c.items) : GoMap.WF (run c ops).items := by
  induction ops generalizing c with
  | nil => exact h
  | cons p rest ih =>
    simp only [run, List.foldl_cons]
    exact ih _ (WF_step c p.1 p.2 h)

end TTLCache

/-! ## The access API: `Set`, `Get`, `Pop`, `Remove` -/

set_option linter.unusedVariables false

namespace TTLCache

variable {K V : Type} [DecidableEq K]

theorem lookup_Set_self (c : TTLCache K V) (key : K) (value : V) (ttl : Duration)
    (now : Time) :
    GoMap.lookup (Set c key value ttl now).items key = some ⟨value, now + ttl⟩ := by
  simp [Set, Time.Add, GoMap.lookup_assign_self]

/-- C1. `Get` on a live entry: when the store binds `k` to `(v, e)` and the
check time `t` is not after `e`, `Get(k)` returns `(v, true)` and the store is
exactly the one before the call, so `k` is still bound to the same value and
the same expiry. -/
theorem Get_live_entry_untouched [Inhabited V] (c : TTLCache K V) (k : K) (t : Time)
    (v : V) (e : Time) (h : GoMap.lookup c.items k = some ⟨v, e⟩) (hlive : ¬ t > e) :
    (Get c k t).1 = (v, true) ∧ (Get c k t).2 = c ∧
      GoMap.lookup (Get c k t).2.items k = some ⟨v, e⟩ := by
  have hg := Get_valid c k t ⟨v, e⟩ h hlive
  simp [hg, h]

theorem Get_live_entry_untouched_witness :
    GoMap.lookup (⟨[("k", ⟨7, 10⟩)]⟩ : TTLCache String Int).items "k" = some ⟨7, 10⟩ ∧
      ¬ (10 : Time) > 10 ∧
      (Get (⟨[("k", ⟨7, 10⟩)]⟩ : TTLCache String Int) "k" 10).1 = (7, true) ∧
      (Get (⟨[("k", ⟨7, 10⟩)]⟩ : TTLCache String Int) "k" 10).2 = ⟨[("k", ⟨7, 10⟩)]⟩ :=
  ⟨by decide, by decide,
    (Get_live_entry_untouched ⟨[("k", ⟨7, 10⟩)]⟩ "k" 10 7 10 (by decide) (by decide)).1,
    (Get_live_entry_untouched ⟨[("k", ⟨7, 10⟩)]⟩ "k" 10 7 10 (by decide) (by decide)).2.1⟩

/-- C2. Lazy eviction on read: when the store binds `k` to an entry whose
expiry `e` satisfies `t > e`, `Get(k)` at `t` reports `found = false` and the
resulting store has no entry for `k`; a `Get(k)` or `Pop(k)` that follows
directly, at whatever time, reports `found = false` too, and a following
`Set(k, w, ttl)` at time `u` installs the single fresh entry `(w, u + ttl)`. -/
theorem Get_expired_evicts [Inhabited V] (c : TTLCache K V) (k : K) (t : Time)
    (v : V) (e : Time) (h : GoMap.lookup c.items k = some ⟨v, e⟩) (hexp : t > e) :
    (Get c k t).1.2 = false ∧ GoMap.lookup (Get c k t).2.items k = none ∧
      (∀ u : Time, (Get (Get c k t).2 k u).1.2 = false) ∧
      (∀ u : Time, (Pop (Get c k t).2 k u).1.2 = false) ∧
      (∀ (w : V) (ttl : Duration) (u : Time),
        GoMap.lookup (Set (Get c k t).2 k w ttl u).items k = some ⟨w, u + ttl⟩ ∧
        GoMap.bindings (Set (Get c k t).2 k w ttl u).items k = 1) := by
  have hg := Get_expired c k t ⟨v, e⟩ h hexp
  have hnone : GoMap.lookup (Get c k t).2.items k = none := by
    rw [hg]; exact GoMap.lookup_delete_self _ _
  refine ⟨by rw [hg], hnone, fun u => ?_, fun u => ?_, fun w ttl u => ⟨?_, ?_⟩⟩
  · rw [Get_absent _ k u hnone]
  · rw [Pop_absent _ k u hnone]
  · exact lookup_Set_self _ k w ttl u
  · exact GoMap.bindings_assign_self _ k _

theorem Get_expired_evicts_witness :
    GoMap.lookup (⟨[("k", ⟨7, 10⟩)]⟩ : TTLCache String Int).items "k" = some ⟨7, 10⟩ ∧
      (11 : Time) > 10 ∧
      (Get (⟨[("k", ⟨7, 10⟩)]⟩ : TTLCache String Int) "k" 11).1.2 = false ∧
      GoMap.lookup (Get (⟨[("k", ⟨7, 10⟩)]⟩ : TTLCache String Int) "k" 11).2.items "k" = none :=
  ⟨by decide, by decide,
    (Get_expired_evicts ⟨[("k", ⟨7, 10⟩)]⟩ "k" 11 7 10 (by decide) (by decide)).1,
    (Get_expired_evicts ⟨[("k", ⟨7, 10⟩)]⟩ "k" 11 7 10 (by decide) (by decide)).2.1⟩

/-- C3. `Pop` removes regardless of validity and is not re-poppable: after
`Pop(k)` at `t` the store has no entry for `k`, expired or not; `found` is
true exactly when the store bound `k` to an entry that is not expired at `t`,
and then the returned value is the stored one; a second `Pop(k)` directly
after, at whatever time, returns `found = false`. -/
theorem Pop_removes_and_reports_validity [Inhabited V] (c : TTLCache K V) (k : K)
    (t : Time) :
    GoMap.lookup (Pop c k t).2.items k = none ∧
      ((Pop c k t).1.2 = true ↔
        ∃ (v : V) (e : Time), GoMap.lookup c.items k = some ⟨v, e⟩ ∧ ¬ t > e) ∧
      (∀ (v : V) (e : Time), GoMap.lookup c.items k = some ⟨v, e⟩ → ¬ t > e →
        (Pop c k t).1 = (v, true)) ∧
      (∀ u : Time, (Pop (Pop c k t).2 k u).1.2 = false) := by
  have hgone : GoMap.lookup (Pop c k t).2.items k = none := by
    cases h : GoMap.lookup c.items k with
    | none => rw [Pop_absent c k t h]; exact h
    | some i =>
      by_cases hexp : i.expiry < t
      · rw [Pop_expired c k t i h hexp]; exact GoMap.lookup_delete_self _ _
      · rw [Pop_valid c k t i h hexp]; exact GoMap.lookup_delete_self _ _
  refine ⟨hgone, ?_, ?_, fun u => by rw [Pop_absent _ k u hgone]⟩
  · cases h : GoMap.lookup c.items k with
    | none => simp [Pop_absent c k t h]
    | some i =>
      by_cases hexp : i.expiry < t
      · rw [Pop_expired c k t i h hexp]
        constructor
        · intro hf; cases hf
        · rintro ⟨v, e, hve, hlive⟩
          cases hve
          exact absurd hexp hlive
      · rw [Pop_valid c k t i h hexp]
        exact ⟨fun _ => ⟨i.value, i.expiry, rfl, hexp⟩, fun _ => rfl⟩
  · intro v e h hlive
    rw [Pop_valid c k t ⟨v, e⟩ h hlive]

end TTLCache

namespace TTLCache

variable {K V : Type} [DecidableEq K]

theorem boundToOrAbsent_delete (m : GoMap K (item V)) (k key : K) (i : item V)
    (h : boundToOrAbsent m k i) : boundToOrAbsent (GoMap.delete m key) k i := by
  rcases GoMap.lookup_delete_cases m key k with hd | hd
  · exact Or.inl hd
  · unfold boundToOrAbsent; rw [hd]; exact h

theorem boundToOrAbsent_sweepLoop (clock : Nat → Time) (k : K) (i : item V)
    (entries : List (K × item V)) (n : Nat) (m : GoMap K (item V))
    (h : boundToOrAbsent m k i) :
    boundToOrAbsent (sweepLoop clock entries n m) k i := by
  induction entries generalizing n m with
  | nil => exact h
  | cons kv rest ih =>
    simp only [sweepLoop]
    apply ih
    by_cases hx : kv.2.isExpired (clock n) = true
    · simp only [hx, if_true]; exact boundToOrAbsent_delete m k kv.1 i h
    · simp only [hx]; exact h

theorem boundToOrAbsent_step [Inhabited V] (c : TTLCache K V) (k : K) (i : item V)
    (op : Op K V) (now : Time) (hop : ∀ (w : V) (d : Duration), op ≠ Op.set k w d)
    (h : boundToOrAbsent c.items k i) : boundToOrAbsent (step c op now).items k i := by
  cases op with
  | set key value ttl =>
    have hne : key ≠ k := fun hk => hop value ttl (by rw [hk])
    unfold boundToOrAbsent
    simp only [step, Set]
    rw [GoMap.lookup_assign_ne _ _ hne]
    exact h
  | get key =>
    simp only [step]
    cases hl : GoMap.lookup c.items key with
    | none => rw [Get_absent c key now hl]; exact h
    | some j =>
      by_cases hexp : j.expiry < now
      · rw [Get_expired c key now j hl hexp]; exact boundToOrAbsent_delete _ k key i h
      · rw [Get_valid c key now j hl hexp]; exact h
  | pop key =>
    simp only [step]
    cases hl : GoMap.lookup c.items key with
    | none => rw [Pop_absent c key now hl]; exact h
    | some j =>
      by_cases hexp : j.expiry < now
      · rw [Pop_expired c key now j hl hexp]; exact boundToOrAbsent_delete _ k key i h
      · rw [Pop_valid c key now j hl hexp]; exact boundToOrAbsent_delete _ k key i h
  | remove key => exact boundToOrAbsent_delete _ k key i h
  | sweep clock => exact boundToOrAbsent_sweepLoop clock k i c.items 0 c.items h

theorem boundToOrAbsent_run [Inhabited V] (k : K) (i : item V)
    (ops : List (Op K V × Time)) (c : TTLCache K V)
    (hops : ∀ p ∈ ops, ∀ (w : V) (d : Duration), p.1 ≠ Op.set k w d)
    (h : boundToOrAbsent c.items k i) : boundToOrAbsent (run c ops).items k i := by
  induction ops generalizing c with
  | nil => exact h
  | cons p rest ih =>
    simp only [run, List.foldl_cons]
    apply ih
    · intro q hq; exact hops q (List.mem_cons_of_mem _ hq)
    · exact boundToOrAbsent_step c k i p.1 p.2 (hops p (List.mem_cons_self _ _)) h

/-- C4. P1, `Set` then `Get`: after `Set(k, v, ttl)` at time `t` with
`ttl > 0`, a `Get(k)` that follows directly at any time `u` with
`t <= u <= t + ttl` returns `(v, true)`; in particular the `Get(k)` at `t`
itself does. -/
theorem Set_then_Get_found [Inhabited V] (c : TTLCache K V) (k : K) (v : V)
    (ttl : Duration) (t u : Time) (hpos : 0 < ttl) (htu : t ≤ u) (hut : u ≤ t + ttl) :
    (Get (Set c k v ttl t) k u).1 = (v, true) ∧
      (Get (Set c k v ttl t) k t).1 = (v, true) := by
  constructor
  · rw [Get_valid _ k u ⟨v, t + ttl⟩ (lookup_Set_self c k v ttl t) (not_lt.mpr hut)]
  · rw [Get_valid _ k t ⟨v, t + ttl⟩ (lookup_Set_self c k v ttl t)
      (not_lt.mpr (le_add_of_nonneg_right (le_of_lt hpos)))]

theorem Set_then_Get_found_witness :
    (0 : Duration) < 5 ∧ (3 : Time) ≤ 8 ∧ (8 : Time) ≤ 3 + 5 ∧
      (Get (Set (⟨[("k", ⟨9, 1⟩)]⟩ : TTLCache String Int) "k" 7 5 3) "k" 8).1 = (7, true) :=
  ⟨by decide, by decide, by decide,
    (Set_then_Get_found ⟨[("k", ⟨9, 1⟩)]⟩ "k" 7 5 3 8 (by decide) (by decide) (by decide)).1⟩

/-- C5. P2, expiry enforcement: after `Set(k, v, ttl)` at time `t`, whatever
calls follow (methods on any key and janitor passes, at any clock readings)
as long as none of them is a `Set` on `k`, a `Get(k)` at a time `u > t + ttl`
returns `found = false`; in particular the `Get(k)` that follows the `Set`
directly does. -/
theorem Get_after_ttl_not_found [Inhabited V] (c : TTLCache K V) (k : K) (v : V)
    (ttl : Duration) (t u : Time) (ops : List (Op K V × Time))
    (hwait : u > t + ttl)
    (hops : ∀ p ∈ ops, ∀ (w : V) (d : Duration), p.1 ≠ Op.set k w d) :
    (Get (run (Set c k v ttl t) ops) k u).1.2 = false ∧
      (Get (Set c k v ttl t) k u).1.2 = false := by
  have hdirect : (Get (Set c k v ttl t) k u).1.2 = false := by
    rw [Get_expired _ k u ⟨v, t + ttl⟩ (lookup_Set_self c k v ttl t) hwait]
  refine ⟨?_, hdirect⟩
  have hinv := boundToOrAbsent_run k ⟨v, t + ttl⟩ ops (Set c k v ttl t) hops
    (Or.inr (lookup_Set_self c k v ttl t))
  rcases hinv with hnone | hsome
  · rw [Get_absent _ k u hnone]
  · rw [Get_expired _ k u ⟨v, t + ttl⟩ hsome hwait]

theorem Get_after_ttl_not_found_witness :
    (9 : Time) > 3 + 5 ∧
      (∀ p ∈ [((Op.get "k" : Op String Int), (4 : Time)), (Op.set "j" 1 100, 5), (Op.sweep (fun n => 6 + n), 6)],
        ∀ (w : Int) (d : Duration), p.1 ≠ Op.set "k" w d) ∧
      (Get (run (Set (⟨[]⟩ : TTLCache String Int) "k" 7 5 3)
        [(Op.get "k", 4), (Op.set "j" 1 100, 5), (Op.sweep (fun n => 6 + n), 6)]) "k" 9).1.2 = false :=
  have hops : ∀ p ∈ [((Op.get "k" : Op String Int), (4 : Time)), (Op.set "j" 1 100, 5), (Op.sweep (fun n => 6 + n), 6)],
      ∀ (w : Int) (d : Duration), p.1 ≠ Op.set "k" w d := by
    intro p hp w d
    simp only [List.mem_cons, List.mem_singleton, List.mem_nil_iff, or_false] at hp
    rcases hp with rfl | rfl | rfl
    · intro h; cases h
    · intro h; injection h with h1; exact absurd h1 (by decide)
    · intro h; cases h
  ⟨by decide, hops,
    (Get_after_ttl_not_found ⟨[]⟩ "k" 7 5 3 9 _ (by decide) hops).1⟩

/-- C6. P5, overwrite resets the TTL: after `Set(k, v1, short)` at `t1` and
then `Set(k, v2, long)` at `t2`, with `short < long` and `t1 <= t2`, the store
holds for `k` exactly the one entry `(v2, t2 + long)`, and `Get(k)` at any
time `u` with `t1 + short < u <= t2 + long` returns `(v2, true)`. -/
theorem Set_overwrite_resets_ttl [Inhabited V] (c : TTLCache K V) (k : K) (v1 v2 : V)
    (short long : Duration) (t1 t2 u : Time) (hlt : short < long) (h12 : t1 ≤ t2)
    (hu1 : t1 + short < u) (hu2 : u ≤ t2 + long) :
    GoMap.lookup (Set (Set c k v1 short t1) k v2 long t2).items k = some ⟨v2, t2 + long⟩ ∧
      GoMap.bindings (Set (Set c k v1 short t1) k v2 long t2).items k = 1 ∧
      (Get (Set (Set c k v1 short t1) k v2 long t2) k u).1 = (v2, true) := by
  have hl := lookup_Set_self (Set c k v1 short t1) k v2 long t2
  refine ⟨hl, GoMap.bindings_assign_self _ k _, ?_⟩
  rw [Get_valid _ k u ⟨v2, t2 + long⟩ hl (not_lt.mpr hu2)]

theorem Set_overwrite_resets_ttl_witness :
    (2 : Duration) < 10 ∧ (0 : Time) ≤ 1 ∧ (0 : Time) + 2 < 5 ∧ (5 : Time) ≤ 1 + 10 ∧
      (Get (Set (Set (⟨[]⟩ : TTLCache String Int) "k" 1 2 0) "k" 2 10 1) "k" 5).1 = (2, true) :=
  ⟨by decide, by decide, by decide, by decide,
    (Set_overwrite_resets_ttl ⟨[]⟩ "k" 1 2 2 10 0 1 5
      (by decide) (by decide) (by decide) (by decide)).2.2⟩

end TTLCache

namespace TTLCache

variable {K V : Type} [DecidableEq K]

/-- C7, as stated, fails: with the cache made and the two `Set` calls run at
time 0 and the reads 150ms later, `Get("a")` on the expired entry returns the
stale value 1 with `false`, not `(0, false)`. -/
theorem scenario_not_as_stated :
    scenario 0 ≠ [(0, false), (2, true), (2, true), (0, false)] ∧
      scenario 0 = [(1, false), (2, true), (2, true), (0, false)] := by
  decide

/-- C7, amended. On a fresh `TTLCache[string,int]`, `Set("a",1,100ms)` and
`Set("b",2,10s)` at time `t0`, then 150ms later the calls `Get("a")`,
`Get("b")`, `Pop("b")`, `Get("b")` return `(1,false)`, `(2,true)`,
`(2,true)`, `(0,false)` in that order: the expired `Get("a")` hands back the
stale value 1. -/
theorem scenario_results (t0 : Time) :
    scenario t0 = [(1, false), (2, true), (2, true), (0, false)] := by
  have hab : ("a" : String) ≠ "b" := by decide
  have hba : ("b" : String) ≠ "a" := by decide
  have ha : t0 + 100 * Millisecond < t0 + 150 * Millisecond :=
    add_lt_add_left (by decide) t0
  have hb : ¬ (t0 + 10 * Second < t0 + 150 * Millisecond) :=
    not_lt.mpr (add_le_add_left (by decide) t0)
  simp [scenario, NewTTLCache, Set, Get, Pop, GoMap.assign, GoMap.delete, GoMap.index,
    GoMap.lookup, item.isExpired, Time.After, Time.Add, hab, hba, ha, hb]
  rfl

/-- C8. `Get` and `Pop` on an absent key: when the store has no entry for `k`,
both return the zero value of `V` with `false` and leave the store as it
was. -/
theorem Get_Pop_absent_key [Inhabited V] (c : TTLCache K V) (k : K) (t : Time)
    (h : GoMap.lookup c.items k = none) :
    Get c k t = ((default, false), c) ∧ Pop c k t = ((default, false), c) :=
  ⟨Get_absent c k t h, Pop_absent c k t h⟩

theorem Get_Pop_absent_key_witness :
    GoMap.lookup (⟨[("j", ⟨7, 10⟩)]⟩ : TTLCache String Int).items "k" = none ∧
      Get (⟨[("j", ⟨7, 10⟩)]⟩ : TTLCache String Int) "k" 3 = ((0, false), ⟨[("j", ⟨7, 10⟩)]⟩) ∧
      Pop (⟨[("j", ⟨7, 10⟩)]⟩ : TTLCache String Int) "k" 3 = ((0, false), ⟨[("j", ⟨7, 10⟩)]⟩) :=
  ⟨by decide, Get_Pop_absent_key ⟨[("j", ⟨7, 10⟩)]⟩ "k" 3 (by decide)⟩

/-- C9. `Remove` is an unconditional, idempotent delete: `Remove(k)` yields a
store with no entry for `k` (it never looks at the expiry); when the store had
no entry for `k` it is unchanged; and `Remove(k)` twice gives the same store
as `Remove(k)` once. -/
theorem Remove_unconditional_idempotent (c : TTLCache K V) (k : K) :
    GoMap.lookup (Remove c k).items k = none ∧
      GoMap.bindings (Remove c k).items k = 0 ∧
      (GoMap.lookup c.items k = none → Remove c k = c) ∧
      Remove (Remove c k) k = Remove c k := by
  refine ⟨GoMap.lookup_delete_self _ _, GoMap.bindings_delete_self _ _, fun h => ?_, ?_⟩
  · simp [Remove, GoMap.delete_eq_self_of_lookup_none _ _ h]
  · simp [Remove, GoMap.delete_delete]

/-- C10, as stated, fails: on the empty store and on a store holding the
entry `(5, 0)` for `"k"`, expired at time 1, `Get("k")` returns `(0, false)`
and `(5, false)`, and so does `Pop("k")`: the value tells the two apart. -/
theorem absent_expired_pairs_differ :
    GoMap.lookup (⟨[]⟩ : TTLCache String Int).items "k" = none ∧
      GoMap.lookup (⟨[("k", ⟨5, 0⟩)]⟩ : TTLCache String Int).items "k" = some ⟨5, 0⟩ ∧
      (1 : Time) > 0 ∧
      (Get (⟨[]⟩ : TTLCache String Int) "k" 1).1 ≠
        (Get (⟨[("k", ⟨5, 0⟩)]⟩ : TTLCache String Int) "k" 1).1 ∧
      (Pop (⟨[]⟩ : TTLCache String Int) "k" 1).1 ≠
        (Pop (⟨[("k", ⟨5, 0⟩)]⟩ : TTLCache String Int) "k" 1).1 := by
  decide

/-- C10, amended. For a store `c1` with no entry for `k` and a store `c2`
binding `k` to an entry `(v, e)` expired at `t`, `Get(k)` at `t` reports the
same `found` flag, `false`, on both, and so does `Pop(k)`; the returned value
is the zero value on `c1` and the stale stored value `v` on `c2`, so the
returned pairs coincide exactly when `v` is the zero value. -/
theorem absent_expired_same_found [Inhabited V] (c1 c2 : TTLCache K V) (k : K) (t : Time)
    (v : V) (e : Time) (h1 : GoMap.lookup c1.items k = none)
    (h2 : GoMap.lookup c2.items k = some ⟨v, e⟩) (hexp : t > e) :
    (Get c1 k t).1.2 = (Get c2 k t).1.2 ∧ (Pop c1 k t).1.2 = (Pop c2 k t).1.2 ∧
      (Get c1 k t).1 = (default, false) ∧ (Get c2 k t).1 = (v, false) ∧
      (Pop c1 k t).1 = (default, false) ∧ (Pop c2 k t).1 = (v, false) ∧
      ((Get c1 k t).1 = (Get c2 k t).1 ↔ v = default) ∧
      ((Pop c1 k t).1 = (Pop c2 k t).1 ↔ v = default) := by
  rw [Get_absent c1 k t h1, Pop_absent c1 k t h1, Get_expired c2 k t ⟨v, e⟩ h2 hexp,
    Pop_expired c2 k t ⟨v, e⟩ h2 hexp]
  simp [eq_comm]

theorem absent_expired_same_found_witness :
    GoMap.lookup (⟨[]⟩ : TTLCache String Int).items "k" = none ∧
      GoMap.lookup (⟨[("k", ⟨5, 0⟩)]⟩ : TTLCache String Int).items "k" = some ⟨5, 0⟩ ∧
      (1 : Time) > 0 ∧
      (Get (⟨[]⟩ : TTLCache String Int) "k" 1).1.2 =
        (Get (⟨[("k", ⟨5, 0⟩)]⟩ : TTLCache String Int) "k" 1).1.2 :=
  ⟨by decide, by decide, by decide,
    (absent_expired_same_found ⟨[]⟩ ⟨[("k", ⟨5, 0⟩)]⟩ "k" 1 5 0
      (by decide) (by decide) (by decide)).1⟩

end TTLCache

/-! ## Strict expiry, zero and negative TTL -/

namespace TTLCache

variable {K V : Type} [DecidableEq K]

/-- C11. Expiry is strict: `isExpired` at time `t` on an entry with expiry
`e` is true exactly when `t > e`; at `t = e` the entry is not expired, so on
a store that binds `k` to `(v, e)` both `Get(k)` and `Pop(k)` at the very
instant `e` return `(v, true)`. -/
theorem isExpired_strict [Inhabited V] (c : TTLCache K V) (k : K) (v : V) (e : Time)
    (h : GoMap.lookup c.items k = some ⟨v, e⟩) :
    (∀ (i : item V) (t : Time), i.isExpired t = true ↔ t > i.expiry) ∧
      (⟨v, e⟩ : item V).isExpired e = false ∧
      (Get c k e).1 = (v, true) ∧ (Pop c k e).1 = (v, true) := by
  have hlive : ¬ (⟨v, e⟩ : item V).expiry < e := lt_irrefl e
  refine ⟨fun i t => by simp [item.isExpired, Time.After], ?_, ?_, ?_⟩
  · simp [item.isExpired, Time.After]
  · rw [Get_valid c k e ⟨v, e⟩ h hlive]
  · rw [Pop_valid c k e ⟨v, e⟩ h hlive]

theorem isExpired_strict_witness :
    GoMap.lookup (⟨[("k", ⟨7, 10⟩)]⟩ : TTLCache String Int).items "k" = some ⟨7, 10⟩ ∧
      (Get (⟨[("k", ⟨7, 10⟩)]⟩ : TTLCache String Int) "k" 10).1 = (7, true) ∧
      (Pop (⟨[("k", ⟨7, 10⟩)]⟩ : TTLCache String Int) "k" 10).1 = (7, true) :=
  ⟨by decide, (isExpired_strict ⟨[("k", ⟨7, 10⟩)]⟩ "k" 7 10 (by decide)).2.2⟩

/-- C12, as stated, fails: after `Set("k", 7, 0)` at time 5 on the empty
cache, `Get("k")` and `Pop("k")` at the time 5 (which is `>= 5`) return
`(7, true)`: the entry is not expired at its own expiry instant. -/
theorem zero_ttl_live_at_set_time :
    (5 : Time) ≥ 5 ∧
      (Get (Set (⟨[]⟩ : TTLCache String Int) "k" 7 0 5) "k" 5).1 = (7, true) ∧
      (Pop (Set (⟨[]⟩ : TTLCache String Int) "k" 7 0 5) "k" 5).1 = (7, true) ∧
      (Get (Set (⟨[]⟩ : TTLCache String Int) "k" 7 0 5) "k" 5).1.2 ≠ false := by
  decide

/-- C12, amended. `Set(k, v, 0)` at time `t` stores the entry `(v, t)`; the
next `Get(k)` or `Pop(k)` at any time `u > t` reports `found = false`, while
at `u = t` the entry is still live and both return `(v, true)`. -/
theorem zero_ttl_expired_after_set_time [Inhabited V] (c : TTLCache K V) (k : K) (v : V)
    (t u : Time) (htu : t < u) :
    GoMap.lookup (Set c k v 0 t).items k = some ⟨v, t⟩ ∧
      (Get (Set c k v 0 t) k u).1.2 = false ∧ (Pop (Set c k v 0 t) k u).1.2 = false ∧
      (Get (Set c k v 0 t) k t).1 = (v, true) ∧ (Pop (Set c k v 0 t) k t).1 = (v, true) := by
  have hl : GoMap.lookup (Set c k v 0 t).items k = some ⟨v, t⟩ := by
    have := lookup_Set_self c k v 0 t
    simpa using this
  have hlive : ¬ (⟨v, t⟩ : item V).expiry < t := lt_irrefl t
  refine ⟨hl, ?_, ?_, ?_, ?_⟩
  · rw [Get_expired _ k u ⟨v, t⟩ hl htu]
  · rw [Pop_expired _ k u ⟨v, t⟩ hl htu]
  · rw [Get_valid _ k t ⟨v, t⟩ hl hlive]
  · rw [Pop_valid _ k t ⟨v, t⟩ hl hlive]

theorem zero_ttl_expired_after_set_time_witness :
    (5 : Time) < 6 ∧
      (Get (Set (⟨[]⟩ : TTLCache String Int) "k" 7 0 5) "k" 6).1.2 = false ∧
      (Pop (Set (⟨[]⟩ : TTLCache String Int) "k" 7 0 5) "k" 6).1.2 = false :=
  ⟨by decide,
    (zero_ttl_expired_after_set_time ⟨[]⟩ "k" 7 5 6 (by decide)).2.1,
    (zero_ttl_expired_after_set_time ⟨[]⟩ "k" 7 5 6 (by decide)).2.2.1⟩

/-- C13. A negative TTL gives an already-expired entry: for `ttl < 0`,
`Set(k, v, ttl)` at time `t` stores the entry `(v, t + ttl)`, and a `Get(k)`
or `Pop(k)` that follows at any time `u >= t` reports `found = false` and
leaves the store without an entry for `k`, so that every further `Get(k)` or
`Pop(k)` reports `found = false` as well. -/
theorem negative_ttl_already_expired [Inhabited V] (c : TTLCache K V) (k : K) (v : V)
    (ttl : Duration) (t u : Time) (hneg : ttl < 0) (htu : t ≤ u) :
    GoMap.lookup (Set c k v ttl t).items k = some ⟨v, t + ttl⟩ ∧
      (Get (Set c k v ttl t) k u).1.2 = false ∧
      GoMap.lookup (Get (Set c k v ttl t) k u).2.items k = none ∧
      (Pop (Set c k v ttl t) k u).1.2 = false ∧
      GoMap.lookup (Pop (Set c k v ttl t) k u).2.items k = none ∧
      (∀ w : Time, (Get (Get (Set c k v ttl t) k u).2 k w).1.2 = false ∧
        (Pop (Get (Set c k v ttl t) k u).2 k w).1.2 = false ∧
        (Get (Pop (Set c k v ttl t) k u).2 k w).1.2 = false ∧
        (Pop (Pop (Set c k v ttl t) k u).2 k w).1.2 = false) := by
  have hl := lookup_Set_self c k v ttl t
  have hexp : (⟨v, t + ttl⟩ : item V).expiry < u :=
    lt_of_lt_of_le (add_lt_of_neg_right t hneg) htu
  have hg : GoMap.lookup (Get (Set c k v ttl t) k u).2.items k = none := by
    rw [Get_expired _ k u ⟨v, t + ttl⟩ hl hexp]; exact GoMap.lookup_delete_self _ _
  have hp : GoMap.lookup (Pop (Set c k v ttl t) k u).2.items k = none := by
    rw [Pop_expired _ k u ⟨v, t + ttl⟩ hl hexp]; exact GoMap.lookup_delete_self _ _
  refine ⟨hl, ?_, hg, ?_, hp, fun w => ⟨?_, ?_, ?_, ?_⟩⟩
  · rw [Get_expired _ k u ⟨v, t + ttl⟩ hl hexp]
  · rw [Pop_expired _ k u ⟨v, t + ttl⟩ hl hexp]
  · rw [Get_absent _ k w hg]
  · rw [Pop_absent _ k w hg]
  · rw [Get_absent _ k w hp]
  · rw [Pop_absent _ k w hp]

theorem negative_ttl_already_expired_witness :
    (-3 : Duration) < 0 ∧ (5 : Time) ≤ 5 ∧
      (Get (Set (⟨[]⟩ : TTLCache String Int) "k" 7 (-3) 5) "k" 5).1.2 = false ∧
      GoMap.lookup (Get (Set (⟨[]⟩ : TTLCache String Int) "k" 7 (-3) 5) "k" 5).2.items "k" = none :=
  ⟨by decide, by decide,
    (negative_ttl_already_expired ⟨[]⟩ "k" 7 (-3) 5 5 (by decide) (by decide)).2.1,
    (negative_ttl_already_expired ⟨[]⟩ "k" 7 (-3) 5 5 (by decide) (by decide)).2.2.1⟩

end TTLCache

/-! ## The janitor pass -/

set_option linter.unusedSectionVars false

namespace GoMap

variable {K V : Type} [DecidableEq K]

theorem delete_eq_filter (m : GoMap K V) (key : K) :
    delete m key = m.filter (fun kv => !decide (kv.1 = key)) := by
  induction m with
  | nil => rfl
  | cons kv rest ih =>
    obtain ⟨k, v⟩ := kv
    by_cases hk : k = key
    · simp [delete, hk, ih]
    · simp [delete, hk, ih]

theorem lookup_eq_none_of_not_mem_keys (m : GoMap K V) (key : K) (h : key ∉ keys m) :
    lookup m key = none := by
  induction m with
  | nil => rfl
  | cons kv rest ih =>
    obtain ⟨k, v⟩ := kv
    have hk : ¬ k = key := fun hk => h (by simp [keys, hk])
    have hrest : key ∉ keys rest := fun hmem => h (by
      simp only [keys, List.map_cons, List.mem_cons]; exact Or.inr hmem)
    simp [lookup, hk, ih hrest]

theorem mem_of_lookup_eq_some (m : GoMap K V) (key : K) (v : V)
    (h : lookup m key = some v) : (key, v) ∈ m := by
  induction m with
  | nil => simp [lookup] at h
  | cons kv rest ih =>
    obtain ⟨k, w⟩ := kv
    by_cases hk : k = key
    · simp only [lookup, hk, if_true, Option.some.injEq] at h
      simp [hk, h]
    · simp only [lookup, hk, if_false] at h
      exact List.mem_cons_of_mem _ (ih h)

theorem lookup_eq_some_of_mem (m : GoMap K V) (key : K) (v : V) (h : WF m)
    (hmem : (key, v) ∈ m) : lookup m key = some v := by
  induction m with
  | nil => simp at hmem
  | cons kv rest ih =>
    obtain ⟨k, w⟩ := kv
    have hcons : k ∉ keys rest ∧ WF rest := by simpa [WF, keys] using h
    rcases List.mem_cons.mp hmem with heq | hrest
    · cases heq
      simp [lookup]
    · have hk : ¬ k = key := by
        intro hk
        apply hcons.1
        rw [hk]
        exact List.mem_map_of_mem Prod.fst hrest
      simp [lookup, hk, ih hcons.2 hrest]

theorem lookup_filter (m : GoMap K V) (p : K × V → Bool) (key : K) (h : WF m) :
    lookup (m.filter p) key = (lookup m key).filter (fun v => p (key, v)) := by
  induction m with
  | nil => rfl
  | cons kv rest ih =>
    obtain ⟨k, v⟩ := kv
    have hcons : k ∉ keys rest ∧ WF rest := by simpa [WF, keys] using h
    by_cases hk : k = key
    · subst hk
      have hnone : lookup rest k = none := lookup_eq_none_of_not_mem_keys rest k hcons.1
      by_cases hp : p (k, v) = true
      · simp [List.filter_cons, hp, lookup, Option.filter]
      · have hih := ih hcons.2
        rw [hnone] at hih
        simp [List.filter_cons, hp, lookup, Option.filter, hih]
    · by_cases hp : p (k, v) = true
      · simp [List.filter_cons, hp, lookup, hk, ih hcons.2]
      · simp [List.filter_cons, hp, lookup, hk, ih hcons.2]

end GoMap

namespace TTLCache

variable {K V : Type} [DecidableEq K]

theorem mem_keys_of_mem_expiredKeys (clock : Nat → Time) (entries : List (K × item V))
    (i : Nat) (key : K) (h : key ∈ expiredKeys clock entries i) :
    key ∈ GoMap.keys entries := by
  induction entries generalizing i with
  | nil => simp [expiredKeys] at h
  | cons e rest ih =>
    simp only [GoMap.keys, List.map_cons, List.mem_cons]
    by_cases hx : e.2.isExpired (clock i) = true
    · simp only [expiredKeys, hx, if_true, List.mem_cons] at h
      rcases h with h | h
      · exact Or.inl h
      · exact Or.inr (ih (i + 1) h)
    · simp only [expiredKeys, hx] at h
      exact Or.inr (ih (i + 1) h)

theorem sweepLoop_eq_filter (clock : Nat → Time) (entries : List (K × item V)) (i : Nat)
    (m : GoMap K (item V)) :
    sweepLoop clock entries i m =
      m.filter (fun kv => !decide (kv.1 ∈ expiredKeys clock entries i)) := by
  induction entries generalizing i m with
  | nil => simp [sweepLoop, expiredKeys]
  | cons e rest ih =>
    simp only [sweepLoop]
    rw [ih]
    by_cases hx : e.2.isExpired (clock i) = true
    · simp only [hx, if_true, expiredKeys, GoMap.delete_eq_filter, List.filter_filter]
      apply List.filter_congr
      intro kv _
      by_cases hk : kv.1 = e.1
      · simp [hk]
      · simp [hk]
    · simp [hx, expiredKeys]

theorem filter_expiredKeys_eq_keepLive (clock : Nat → Time) (entries : List (K × item V))
    (i : Nat) (hwf : GoMap.WF entries) :
    entries.filter (fun kv => !decide (kv.1 ∈ expiredKeys clock entries i)) =
      keepLive clock entries i := by
  induction entries generalizing i with
  | nil => rfl
  | cons e rest ih =>
    have hcons : e.1 ∉ GoMap.keys rest ∧ GoMap.WF rest := by
      simpa [GoMap.WF, GoMap.keys] using hwf
    have hrest : ∀ kv ∈ rest, kv.1 ≠ e.1 := by
      intro kv hkv hk
      exact hcons.1 (by rw [← hk]; exact List.mem_map_of_mem Prod.fst hkv)
    by_cases hx : e.2.expiry < clock i
    · have hx2 : e.2.isExpired (clock i) = true := by simp [item.isExpired, Time.After, hx]
      have hEK : expiredKeys clock (e :: rest) i = e.1 :: expiredKeys clock rest (i + 1) := by
        simp [expiredKeys, hx2]
      have hKL : keepLive clock (e :: rest) i = keepLive clock rest (i + 1) := by
        simp [keepLive, hx]
      have hh : (!decide (e.1 ∈ e.1 :: expiredKeys clock rest (i + 1))) = false := by simp
      have htail : rest.filter (fun kv =>
            !decide (kv.1 ∈ e.1 :: expiredKeys clock rest (i + 1))) =
          rest.filter (fun kv => !decide (kv.1 ∈ expiredKeys clock rest (i + 1))) := by
        apply List.filter_congr
        intro kv hkv
        simp [hrest kv hkv]
      rw [hEK, hKL, List.filter_cons, hh, htail]
      exact ih (i + 1) hcons.2
    · have hx2 : e.2.isExpired (clock i) = false := by simp [item.isExpired, Time.After, hx]
      have hhead : e.1 ∉ expiredKeys clock rest (i + 1) :=
        fun hmem => hcons.1 (mem_keys_of_mem_expiredKeys clock rest (i + 1) e.1 hmem)
      have hEK : expiredKeys clock (e :: rest) i = expiredKeys clock rest (i + 1) := by
        simp [expiredKeys, hx2]
      have hKL : keepLive clock (e :: rest) i = e :: keepLive clock rest (i + 1) := by
        simp [keepLive, hx]
      have hh : (!decide (e.1 ∈ expiredKeys clock rest (i + 1))) = true := by simp [hhead]
      rw [hEK, hKL, List.filter_cons, hh, ih (i + 1) hcons.2]
      rfl

theorem sweep_eq_keepLive (c : TTLCache K V) (clock : Nat → Time)
    (hwf : GoMap.WF c.items) : (sweep c clock).items = keepLive clock c.items 0 := by
  simp only [sweep]
  rw [sweepLoop_eq_filter, filter_expiredKeys_eq_keepLive clock c.items 0 hwf]

theorem mem_keepLive_lower (clock : Nat → Time) (t : Time) (entries : List (K × item V))
    (i : Nat) (hclock : ∀ j, i ≤ j → j < i + entries.length → t ≤ clock j)
    (kv : K × item V) (h : kv ∈ keepLive clock entries i) :
    kv ∈ entries ∧ ¬ t > kv.2.expiry := by
  induction entries generalizing i with
  | nil => simp [keepLive] at h
  | cons e rest ih =>
    have hnext : ∀ j, i + 1 ≤ j → j < i + 1 + rest.length → t ≤ clock j := by
      intro j h1 h2
      exact hclock j (by omega) (by simp only [List.length_cons]; omega)
    have hi : t ≤ clock i := hclock i (le_refl i) (by simp)
    by_cases hx : e.2.expiry < clock i
    · simp only [keepLive, gt_iff_lt, hx, if_true] at h
      have := ih (i + 1) hnext h
      exact ⟨List.mem_cons_of_mem _ this.1, this.2⟩
    · simp only [keepLive, gt_iff_lt, hx, if_false, List.mem_cons] at h
      rcases h with h | h
      · subst h
        exact ⟨List.mem_cons_self _ _, fun hgt => hx (lt_of_lt_of_le hgt hi)⟩
      · have := ih (i + 1) hnext h
        exact ⟨List.mem_cons_of_mem _ this.1, this.2⟩

theorem mem_keepLive_upper (clock : Nat → Time) (t : Time) (entries : List (K × item V))
    (i : Nat) (hclock : ∀ j, i ≤ j → j < i + entries.length → clock j ≤ t)
    (kv : K × item V) (h : kv ∈ entries) (hlive : ¬ t > kv.2.expiry) :
    kv ∈ keepLive clock entries i := by
  induction entries generalizing i with
  | nil => simp at h
  | cons e rest ih =>
    have hnext : ∀ j, i + 1 ≤ j → j < i + 1 + rest.length → clock j ≤ t := by
      intro j h1 h2
      exact hclock j (by omega) (by simp only [List.length_cons]; omega)
    have hi : clock i ≤ t := hclock i (le_refl i) (by simp)
    rcases List.mem_cons.mp h with h | h
    · subst h
      have hx : ¬ kv.2.expiry < clock i := fun hlt => hlive (lt_of_lt_of_le hlt hi)
      simp [keepLive, hx]
    · by_cases hx : e.2.expiry < clock i
      · simp only [keepLive, gt_iff_lt, hx, if_true]
        exact ih (i + 1) hnext h
      · simp only [keepLive, gt_iff_lt, hx, if_false]
        exact List.mem_cons_of_mem _ (ih (i + 1) hnext h)

theorem keepLive_one_reading (clock : Nat → Time) (t : Time) (entries : List (K × item V))
    (i : Nat) (hclock : ∀ j, i ≤ j → j < i + entries.length → clock j = t) :
    keepLive clock entries i = entries.filter (fun kv => decide (¬ t > kv.2.expiry)) := by
  induction entries generalizing i with
  | nil => rfl
  | cons e rest ih =>
    have hnext : ∀ j, i + 1 ≤ j → j < i + 1 + rest.length → clock j = t := by
      intro j h1 h2
      exact hclock j (by omega) (by simp only [List.length_cons]; omega)
    have hi : clock i = t := hclock i (le_refl i) (by simp)
    by_cases hx : e.2.expiry < t
    · simp [keepLive, hi, hx, List.filter_cons, ih (i + 1) hnext]
    · simp [keepLive, hi, hx, not_lt.mp hx, List.filter_cons, ih (i + 1) hnext]

theorem lookup_sweepLoop_cases (clock : Nat → Time) (entries : List (K × item V))
    (n : Nat) (m : GoMap K (item V)) (key : K) :
    GoMap.lookup (sweepLoop clock entries n m) key = none ∨
      GoMap.lookup (sweepLoop clock entries n m) key = GoMap.lookup m key := by
  induction entries generalizing n m with
  | nil => exact Or.inr rfl
  | cons kv rest ih =>
    simp only [sweepLoop]
    by_cases hx : kv.2.isExpired (clock n) = true
    · simp only [hx, if_true]
      rcases ih (n + 1) (GoMap.delete m kv.1) with h | h
      · exact Or.inl h
      · rcases GoMap.lookup_delete_cases m kv.1 key with hd | hd
        · exact Or.inl (h.trans hd)
        · exact Or.inr (h.trans hd)
    · simp only [hx]
      exact ih (n + 1) m

theorem lookup_sweep_cases (c : TTLCache K V) (clock : Nat → Time) (key : K) :
    GoMap.lookup (sweep c clock).items key = none ∨
      GoMap.lookup (sweep c clock).items key = GoMap.lookup c.items key :=
  lookup_sweepLoop_cases clock c.items 0 c.items key

theorem lookup_sweep_of_live (c : TTLCache K V) (clock : Nat → Time) (u : Time) (key : K)
    (i : item V) (hwf : GoMap.WF c.items)
    (hclock : ∀ j, j < c.items.length → clock j ≤ u)
    (hl : GoMap.lookup c.items key = some i) (hlive : ¬ i.expiry < u) :
    GoMap.lookup (sweep c clock).items key = some i := by
  have hmem : (key, i) ∈ (sweep c clock).items := by
    rw [sweep_eq_keepLive c clock hwf]
    exact mem_keepLive_upper clock u c.items 0
      (fun j _ hj => hclock j (by simpa using hj)) (key, i)
      (GoMap.mem_of_lookup_eq_some _ _ _ hl) hlive
  exact GoMap.lookup_eq_some_of_mem _ key i (WF_sweepLoop clock c.items 0 c.items hwf) hmem

theorem WF_reachable [Inhabited V] (ops : List (Op K V × Time)) :
    GoMap.WF (run (NewTTLCache : TTLCache K V) ops).items :=
  WF_run ops NewTTLCache (by simp [NewTTLCache, GoMap.WF, GoMap.keys])

end TTLCache

namespace TTLCache

variable {K V : Type} [DecidableEq K]

/-- C14, as stated, fails: a pass reads the clock afresh at each entry. On
the store `a ↦ (1, 10)`, `b ↦ (2, 10)` with the readings 10 at `a` and 11 at
`b`, the pass leaves exactly `a`; no single time `t` gives that result as the
entries with `not (t > expiry)`. -/
theorem sweep_not_one_reading :
    GoMap.WF (⟨[("a", ⟨1, 10⟩), ("b", ⟨2, 10⟩)]⟩ : TTLCache String Int).items ∧
      (sweep (⟨[("a", ⟨1, 10⟩), ("b", ⟨2, 10⟩)]⟩ : TTLCache String Int)
        (fun j => 10 + j)).items = [("a", ⟨1, 10⟩)] ∧
      ¬ ∃ t : Time,
        (sweep (⟨[("a", ⟨1, 10⟩), ("b", ⟨2, 10⟩)]⟩ : TTLCache String Int)
          (fun j => 10 + j)).items =
          (⟨[("a", ⟨1, 10⟩), ("b", ⟨2, 10⟩)]⟩ : TTLCache String Int).items.filter
            (fun kv => decide (¬ t > kv.2.expiry)) := by
  have hs : (sweep (⟨[("a", ⟨1, 10⟩), ("b", ⟨2, 10⟩)]⟩ : TTLCache String Int)
      (fun j => 10 + j)).items = [("a", ⟨1, 10⟩)] := by decide
  refine ⟨by simp [GoMap.WF, GoMap.keys], hs, ?_⟩
  rintro ⟨t, ht⟩
  rw [hs] at ht
  by_cases hx : (10 : Time) < t
  · simp [List.filter_cons, hx] at ht
  · simp [List.filter_cons, hx, not_lt.mp hx] at ht

/-- C14, amended. Janitor sweep postcondition: on a store (a map, every key
bound at most once) one sweep pass, which reads the clock afresh at each entry
it visits, yields the store whose entries are exactly the entries whose own
reading is not after their expiry, each with its value and expiry unchanged.
Hence, when every reading of the pass lies between `t` and `t2`, no entry
expired at `t` remains and no entry unexpired at `t2` is lost, whatever `Get`
calls were made; and when all readings are the one time `t`, the entries are
exactly those with `not (t > expiry)`. -/
theorem sweep_postcondition (c : TTLCache K V) (clock : Nat → Time) (t t2 : Time)
    (hwf : GoMap.WF c.items)
    (hclock : ∀ j, j < c.items.length → t ≤ clock j ∧ clock j ≤ t2) :
    (sweep c clock).items = keepLive clock c.items 0 ∧
      (∀ kv ∈ (sweep c clock).items, kv ∈ c.items ∧ ¬ t > kv.2.expiry) ∧
      (∀ kv ∈ c.items, ¬ t2 > kv.2.expiry → kv ∈ (sweep c clock).items) ∧
      (∀ (k : K) (i : item V), GoMap.lookup (sweep c clock).items k = some i →
        GoMap.lookup c.items k = some i) ∧
      ((∀ j, j < c.items.length → clock j = t) →
        (sweep c clock).items = c.items.filter (fun kv => decide (¬ t > kv.2.expiry)) ∧
        ∀ (k : K) (i : item V), GoMap.lookup (sweep c clock).items k = some i ↔
          (GoMap.lookup c.items k = some i ∧ ¬ t > i.expiry)) := by
  have hk := sweep_eq_keepLive c clock hwf
  refine ⟨hk, fun kv hkv => ?_, fun kv hkv hlive => ?_, fun k i hl => ?_, fun hone => ?_⟩
  · rw [hk] at hkv
    exact mem_keepLive_lower clock t c.items 0
      (fun j _ hj => (hclock j (by simpa using hj)).1) kv hkv
  · rw [hk]
    exact mem_keepLive_upper clock t2 c.items 0
      (fun j _ hj => (hclock j (by simpa using hj)).2) kv hkv hlive
  · rcases lookup_sweep_cases c clock k with h | h
    · rw [h] at hl; cases hl
    · rw [← h]; exact hl
  · have hf : (sweep c clock).items =
        c.items.filter (fun kv => decide (¬ t > kv.2.expiry)) := by
      rw [hk]
      exact keepLive_one_reading clock t c.items 0 (fun j _ hj => hone j (by simpa using hj))
    refine ⟨hf, fun k i => ?_⟩
    rw [hf, GoMap.lookup_filter _ _ k hwf]
    cases hl : GoMap.lookup c.items k with
    | none => simp [Option.filter]
    | some j =>
      by_cases hx : j.expiry < t
      · have hnone : Option.filter (fun v : item V => decide (¬ t > (k, v).2.expiry))
            (some j) = none := by
          simp [Option.filter, hx]
        rw [hnone]
        constructor
        · intro h; cases h
        · rintro ⟨hji, hni⟩
          cases hji
          exact absurd hx hni
      · have hsome : Option.filter (fun v : item V => decide (¬ t > (k, v).2.expiry))
            (some j) = some j := by
          simp [Option.filter, not_lt.mp hx]
        rw [hsome]
        constructor
        · intro hji; cases hji; exact ⟨rfl, hx⟩
        · intro h; exact h.1

theorem sweep_postcondition_witness :
    GoMap.WF (⟨[("a", ⟨1, 3⟩), ("b", ⟨2, 9⟩)]⟩ : TTLCache String Int).items ∧
      (∀ j, j < (⟨[("a", ⟨1, 3⟩), ("b", ⟨2, 9⟩)]⟩ : TTLCache String Int).items.length →
        (5 : Time) ≤ (fun j : Nat => (5 : Time) + j) j ∧
          (fun j : Nat => (5 : Time) + j) j ≤ 6) ∧
      (sweep (⟨[("a", ⟨1, 3⟩), ("b", ⟨2, 9⟩)]⟩ : TTLCache String Int)
        (fun j => 5 + j)).items = [("b", ⟨2, 9⟩)] :=
  have hwf : GoMap.WF (⟨[("a", ⟨1, 3⟩), ("b", ⟨2, 9⟩)]⟩ : TTLCache String Int).items := by
    simp [GoMap.WF, GoMap.keys]
  have hclock : ∀ j,
      j < (⟨[("a", ⟨1, 3⟩), ("b", ⟨2, 9⟩)]⟩ : TTLCache String Int).items.length →
        (5 : Time) ≤ (fun j : Nat => (5 : Time) + j) j ∧
          (fun j : Nat => (5 : Time) + j) j ≤ 6 := by
    intro j hj
    have hj2 : j < 2 := hj
    interval_cases j <;> decide
  ⟨hwf, hclock,
    (sweep_postcondition ⟨[("a", ⟨1, 3⟩), ("b", ⟨2, 9⟩)]⟩ (fun j => 5 + j) 5 6 hwf
      hclock).1.trans (by decide)⟩

end TTLCache

/-! ## The plain cache under the TTL cache -/

namespace GoMap

variable {K V W : Type} [DecidableEq K]

theorem lookup_map_snd (m : GoMap K V) (g : V → W) (key : K) :
    lookup (m.map (fun kv => (kv.1, g kv.2))) key = (lookup m key).map g := by
  induction m with
  | nil => rfl
  | cons kv rest ih =>
    obtain ⟨k, v⟩ := kv
    by_cases hk : k = key
    · simp [lookup, hk]
    · simp [lookup, hk, ih]

theorem delete_map_snd (m : GoMap K V) (g : V → W) (key : K) :
    delete (m.map (fun kv => (kv.1, g kv.2))) key =
      (delete m key).map (fun kv => (kv.1, g kv.2)) := by
  induction m with
  | nil => rfl
  | cons kv rest ih =>
    obtain ⟨k, v⟩ := kv
    by_cases hk : k = key
    · simp [delete, hk, ih]
    · simp [delete, hk, ih]

end GoMap

namespace TTLCache

variable {K V : Type} [DecidableEq K]

theorem lookup_erase (c : TTLCache K V) (key : K) :
    GoMap.lookup (erase c).items key = (GoMap.lookup c.items key).map item.value :=
  GoMap.lookup_map_snd c.items item.value key

theorem erase_delete (c : TTLCache K V) (key : K) :
    erase ⟨GoMap.delete c.items key⟩ = ⟨GoMap.delete (erase c).items key⟩ := by
  simp only [erase]
  rw [GoMap.delete_map_snd c.items item.value key]

/-- C15. The plain `Cache` is the `TTLCache` with the expiry omitted: with
`erase` the map that drops every entry's expiry, on a TTL store none of whose
entries is expired at time `t`, and for `ttl >= 0`, each of `Set`, `Get`,
`Pop`, `Remove` at `t` returns the same `(value, found)` pair as the method
of the same name of `Cache` on the erased store, and the TTL store it leaves
erases to the plain store the `Cache` method leaves. -/
theorem erase_refines_plain_cache [Inhabited V] (c : TTLCache K V) (t : Time) (k : K)
    (v : V) (ttl : Duration) (hlive : ∀ kv ∈ c.items, ¬ t > kv.2.expiry)
    (httl : 0 ≤ ttl) :
    erase (Set c k v ttl t) = Cache.Set (erase c) k v ∧
      (Get c k t).1 = (Cache.Get (erase c) k).1 ∧
      erase (Get c k t).2 = (Cache.Get (erase c) k).2 ∧
      (Pop c k t).1 = (Cache.Pop (erase c) k).1 ∧
      erase (Pop c k t).2 = (Cache.Pop (erase c) k).2 ∧
      erase (Remove c k) = Cache.Remove (erase c) k := by
  have hset : erase (Set c k v ttl t) = Cache.Set (erase c) k v := by
    simp only [Set, Cache.Set, GoMap.assign, erase, List.map_cons]
    rw [GoMap.delete_map_snd c.items item.value k]
  have hrem : erase (Remove c k) = Cache.Remove (erase c) k := erase_delete c k
  refine ⟨hset, ?_, ?_, ?_, ?_, hrem⟩
  all_goals
    cases hl : GoMap.lookup c.items k with
    | none =>
      have he : GoMap.lookup (erase c).items k = none := by rw [lookup_erase, hl]; rfl
      simp [Get_absent c k t hl, Pop_absent c k t hl, Cache.Get, Cache.Pop,
        GoMap.index_of_lookup_none _ _ he]
    | some i =>
      have hi : ¬ i.expiry < t := hlive (k, i) (GoMap.mem_of_lookup_eq_some _ _ _ hl)
      have he : GoMap.lookup (erase c).items k = some i.value := by
        rw [lookup_erase, hl]; rfl
      simp [Get_valid c k t i hl hi, Pop_valid c k t i hl hi, Cache.Get, Cache.Pop,
        GoMap.index_of_lookup_some _ _ _ he, erase_delete]

theorem erase_refines_plain_cache_witness :
    (∀ kv ∈ (⟨[("a", ⟨1, 8⟩), ("b", ⟨2, 9⟩)]⟩ : TTLCache String Int).items,
        ¬ (5 : Time) > kv.2.expiry) ∧
      (0 : Duration) ≤ 4 ∧
      (Pop (⟨[("a", ⟨1, 8⟩), ("b", ⟨2, 9⟩)]⟩ : TTLCache String Int) "b" 5).1 =
        (Cache.Pop (erase (⟨[("a", ⟨1, 8⟩), ("b", ⟨2, 9⟩)]⟩ : TTLCache String Int)) "b").1 ∧
      erase (Pop (⟨[("a", ⟨1, 8⟩), ("b", ⟨2, 9⟩)]⟩ : TTLCache String Int) "b" 5).2 =
        (Cache.Pop (erase (⟨[("a", ⟨1, 8⟩), ("b", ⟨2, 9⟩)]⟩ : TTLCache String Int)) "b").2 :=
  have hlive : ∀ kv ∈ (⟨[("a", ⟨1, 8⟩), ("b", ⟨2, 9⟩)]⟩ : TTLCache String Int).items,
      ¬ (5 : Time) > kv.2.expiry := by
    intro kv hkv
    simp only [List.mem_cons, List.mem_singleton, List.mem_nil_iff, or_false] at hkv
    rcases hkv with rfl | rfl <;> decide
  ⟨hlive, by decide,
    (erase_refines_plain_cache ⟨[("a", ⟨1, 8⟩), ("b", ⟨2, 9⟩)]⟩ 5 "b" 3 4 hlive
      (by decide)).2.2.2.1,
    (erase_refines_plain_cache ⟨[("a", ⟨1, 8⟩), ("b", ⟨2, 9⟩)]⟩ 5 "b" 3 4 hlive
      (by decide)).2.2.2.2.1⟩

end TTLCache

/-! ## Sweep transparency, `Pop` as `Get` then `Remove`, and the frame -/

namespace TTLCache

variable {K V : Type} [DecidableEq K]

/-- C17. The sweep is transparent for validity: on a store (a map, every key
bound at most once), for a sweep pass whose clock readings are all at most
`u` (in particular a pass at a time `t` with `u >= t`), `Get(k)` at `u` on the
swept store reports the same `found` flag as `Get(k)` at `u` on the store
itself, and the same pair whenever `found` is true; and so does `Pop(k)`. -/
theorem sweep_transparent [Inhabited V] (c : TTLCache K V) (clock : Nat → Time)
    (u : Time) (k : K) (hwf : GoMap.WF c.items)
    (hclock : ∀ j, j < c.items.length → clock j ≤ u) :
    (Get (sweep c clock) k u).1.2 = (Get c k u).1.2 ∧
      ((Get c k u).1.2 = true → (Get (sweep c clock) k u).1 = (Get c k u).1) ∧
      (Pop (sweep c clock) k u).1.2 = (Pop c k u).1.2 ∧
      ((Pop c k u).1.2 = true → (Pop (sweep c clock) k u).1 = (Pop c k u).1) := by
  cases hl : GoMap.lookup c.items k with
  | none =>
    have hs2 : GoMap.lookup (sweep c clock).items k = none := by
      rcases lookup_sweep_cases c clock k with h | h
      · exact h
      · rw [h, hl]
    simp [Get_absent c k u hl, Pop_absent c k u hl, Get_absent _ k u hs2,
      Pop_absent _ k u hs2]
  | some i =>
    by_cases hxu : i.expiry < u
    · rcases lookup_sweep_cases c clock k with hs2 | hs2
      · simp [Get_expired c k u i hl hxu, Pop_expired c k u i hl hxu, Get_absent _ k u hs2,
          Pop_absent _ k u hs2]
      · rw [hl] at hs2
        simp [Get_expired c k u i hl hxu, Pop_expired c k u i hl hxu,
          Get_expired _ k u i hs2 hxu, Pop_expired _ k u i hs2 hxu]
    · have hs2 := lookup_sweep_of_live c clock u k i hwf hclock hl hxu
      simp [Get_valid c k u i hl hxu, Pop_valid c k u i hl hxu,
        Get_valid _ k u i hs2 hxu, Pop_valid _ k u i hs2 hxu]

theorem sweep_transparent_witness :
    GoMap.WF (⟨[("a", ⟨1, 3⟩), ("b", ⟨2, 9⟩)]⟩ : TTLCache String Int).items ∧
      (∀ j, j < (⟨[("a", ⟨1, 3⟩), ("b", ⟨2, 9⟩)]⟩ : TTLCache String Int).items.length →
        (fun _ : Nat => (5 : Time)) j ≤ 6) ∧
      (Get (sweep (⟨[("a", ⟨1, 3⟩), ("b", ⟨2, 9⟩)]⟩ : TTLCache String Int)
          (fun _ => 5)) "a" 6).1.2 =
        (Get (⟨[("a", ⟨1, 3⟩), ("b", ⟨2, 9⟩)]⟩ : TTLCache String Int) "a" 6).1.2 :=
  have hwf : GoMap.WF (⟨[("a", ⟨1, 3⟩), ("b", ⟨2, 9⟩)]⟩ : TTLCache String Int).items := by
    simp [GoMap.WF, GoMap.keys]
  have hclock : ∀ j,
      j < (⟨[("a", ⟨1, 3⟩), ("b", ⟨2, 9⟩)]⟩ : TTLCache String Int).items.length →
        (fun _ : Nat => (5 : Time)) j ≤ 6 := by
    intro j _
    show (5 : Time) ≤ 6
    decide
  ⟨hwf, hclock,
    (sweep_transparent ⟨[("a", ⟨1, 3⟩), ("b", ⟨2, 9⟩)]⟩ (fun _ => 5) 6 "a" hwf hclock).1⟩

/-- C18. `Pop` is `Get` followed by `Remove`: `Pop(k)` at time `t` returns
the same `(value, found)` pair as `Get(k)` at `t`, and the store after
`Pop(k)` is the store after `Get(k)` followed by `Remove(k)`. -/
theorem Pop_eq_Get_then_Remove [Inhabited V] (c : TTLCache K V) (k : K) (t : Time) :
    (Pop c k t).1 = (Get c k t).1 ∧ (Pop c k t).2 = Remove (Get c k t).2 k := by
  cases hl : GoMap.lookup c.items k with
  | none =>
    simp [Pop_absent c k t hl, Get_absent c k t hl, Remove,
      GoMap.delete_eq_self_of_lookup_none _ _ hl]
  | some i =>
    by_cases hx : i.expiry < t
    · simp [Pop_expired c k t i hl hx, Get_expired c k t i hl hx, Remove,
        GoMap.delete_delete]
    · simp [Pop_valid c k t i hl hx, Get_valid c k t i hl hx, Remove]

/-- C19. Key-local frame: for keys `k` and `other` that differ, each of
`Set(k, v, ttl)`, `Get(k)`, `Pop(k)` and `Remove(k)` at time `t` leaves the
entry of `other` as it is in the store: absent stays absent, present keeps its
value and expiry, whether or not it is expired at `t`. -/
theorem frame_other_key [Inhabited V] (c : TTLCache K V) (k other : K) (v : V)
    (ttl : Duration) (t : Time) (hne : k ≠ other) :
    GoMap.lookup (Set c k v ttl t).items other = GoMap.lookup c.items other ∧
      GoMap.lookup (Get c k t).2.items other = GoMap.lookup c.items other ∧
      GoMap.lookup (Pop c k t).2.items other = GoMap.lookup c.items other ∧
      GoMap.lookup (Remove c k).items other = GoMap.lookup c.items other := by
  have hd : GoMap.lookup (GoMap.delete c.items k) other = GoMap.lookup c.items other :=
    GoMap.lookup_delete_ne c.items hne
  refine ⟨GoMap.lookup_assign_ne c.items _ hne, ?_, ?_, hd⟩
  all_goals
    cases hl : GoMap.lookup c.items k with
    | none => simp [Get_absent c k t hl, Pop_absent c k t hl]
    | some i =>
      by_cases hx : i.expiry < t
      · simp [Get_expired c k t i hl hx, Pop_expired c k t i hl hx, hd]
      · simp [Get_valid c k t i hl hx, Pop_valid c k t i hl hx, hd]

theorem frame_other_key_witness :
    ("a" : String) ≠ "b" ∧
      GoMap.lookup (Pop (⟨[("a", ⟨1, 8⟩), ("b", ⟨2, 3⟩)]⟩ : TTLCache String Int) "a" 5).2.items
        "b" = some ⟨2, 3⟩ :=
  ⟨by decide,
    (frame_other_key ⟨[("a", ⟨1, 8⟩), ("b", ⟨2, 3⟩)]⟩ "a" "b" 0 0 5 (by decide)).2.2.1.trans
      (by decide)⟩

end TTLCache

/-! ## The middleware stack -/

theorem nested_append {Handler : Type} (xs ys : List (Middleware Handler)) (h : Handler) :
    nested (xs ++ ys) h = nested xs (nested ys h) := by
  induction xs with
  | nil => rfl
  | cons m ms ih => simp [nested, ih]

theorem CreateStack_loop_eq_nested {Handler : Type} (xs : List (Middleware Handler))
    (j : Nat) (hj : j ≤ xs.length) (next : Handler) :
    CreateStack.loop xs j hj next = nested (xs.take j) next := by
  induction j generalizing next with
  | zero => simp [CreateStack.loop, nested]
  | succ j ih =>
    have hlt : j < xs.length := hj
    have htake : xs.take (j + 1) = xs.take j ++ [xs.get ⟨j, hlt⟩] := by
      rw [← List.take_concat_get xs j hlt, List.concat_eq_append]
      rfl
    rw [CreateStack.loop, ih, htake, nested_append]
    rfl

theorem CreateStack_eq_nested {Handler : Type} (xs : List (Middleware Handler))
    (h : Handler) : CreateStack xs h = nested xs h := by
  simp [CreateStack, CreateStack_loop_eq_nested]

/-- C20. Middleware stacking order: `CreateStack(m1, ..., mn)(h)` is
`m1(m2(...(mn(h))...))`: the first listed middleware is outermost, the next of
each middleware is the stack of those listed after it, and the next of the
last is `h`. In particular `CreateStack()(h) = h`,
`CreateStack(xs ++ ys)(h) = CreateStack(xs)(CreateStack(ys)(h))`, and the
stack `CreateStack(a, b)` of `getRoutes` applied to `h` is `a(b(h))`. -/
theorem CreateStack_order {Handler : Type} (xs ys : List (Middleware Handler))
    (m a b : Middleware Handler) (h : Handler) :
    CreateStack xs h = nested xs h ∧
      CreateStack [] h = h ∧
      CreateStack (m :: xs) h = m (CreateStack xs h) ∧
      CreateStack (xs ++ [m]) h = CreateStack xs (m h) ∧
      CreateStack (xs ++ ys) h = CreateStack xs (CreateStack ys h) ∧
      CreateStack [a, b] h = a (b h) := by
  simp only [CreateStack_eq_nested, nested_append, nested, and_self]

end GoMore
